import Mathlib

/-!
Shallow embedding of the duplicate-PDF-attachment resolution engine of
`Master-Annotations-Note.js` (the "DeDuplicate PDF Attachments" script,
lines 1142-1277): the fuzzy duplicate predicate, the transitive-closure
grouping `getDups`, the canonical selector `getBest`, the tier-by-tier
removal planner of `processRemoving`, and the removal executor.

Strings are compared the way the JavaScript does: `toLowerCase()` followed
by `includes`.  We model a string's lowered form as its list of code
points with ASCII case folding (the patterns the script matches are all
ASCII).  Fallible JavaScript operations (property access on `null`,
store-level deletion failures) are modelled in `Except`.
-/

/-- The per-attachment data the engine reads: `id`, the `title` field, the
`url` field, and the backing file's size and last-modified time; `isPDF`
models `isPDFAttachment()`. -/
structure Att where
  id : Nat
  title : String
  url : String
  fileSize : Nat
  lastModifiedTime : Nat
  isPDF : Bool
deriving DecidableEq, Repr

/-- ASCII case folding of one code point, as `toLowerCase()` acts on the
ASCII range. -/
def lowerChar (c : Nat) : Nat :=
  if 65 ≤ c ∧ c ≤ 90 then c + 32 else c

/-- The code points of `s.toLowerCase()` (ASCII folding). -/
def lowerStr (s : String) : List Nat :=
  s.data.map (fun c => lowerChar c.toNat)

/-- Decides whether `p` is a leading segment of `l`. -/
def leadsList (p l : List Nat) : Bool :=
  match p, l with
  | [], _ => true
  | _ :: _, [] => false
  | a :: p', b :: l' => a == b && leadsList p' l'

/-- Decides whether `p` occurs as a contiguous segment of `l`; this is
JavaScript's `l.includes(p)` on code-point lists. -/
def subList (p l : List Nat) : Bool :=
  match l with
  | [] => leadsList p []
  | _ :: l' => leadsList p l || subList p l'

/-- Case-insensitive containment test backing the script's regular
expression literals: `/pat/i.test(s)` for a plain-text pattern `pat`. -/
def containsPat (s : String) (pat : List Nat) : Bool :=
  subList pat (lowerStr s)

/-- Title test for `/preprint|accepted version|published version/i`
(source line 1212). -/
def matchCombined (t : String) : Bool :=
  containsPat t (lowerStr "preprint") || containsPat t (lowerStr "accepted version")
    || containsPat t (lowerStr "published version")

/-- Title test for `/published version/i` (source line 1228). -/
def matchPublished (t : String) : Bool :=
  containsPat t (lowerStr "published version")

/-- Title test for `/accepted version/i` (source line 1248). -/
def matchAccepted (t : String) : Bool :=
  containsPat t (lowerStr "accepted version")

/-- Title test for `/preprint/i` (source line 1258). -/
def matchPreprint (t : String) : Bool :=
  containsPat t (lowerStr "preprint")

/-- Title test for `/sci-hub/i` (source lines 1229-1232). -/
def matchSciHub (t : String) : Bool :=
  containsPat t (lowerStr "sci-hub")

/-- Title test for `excludeRegEx = /supplement/i` (source lines 1096, 1222). -/
def matchExclude (t : String) : Bool :=
  containsPat t (lowerStr "supplement")

/-- The inline pairwise duplicate test of `getDups` (source lines
1148-1151): equal file sizes, or one lowered URL `includes` the other;
the source has no non-emptiness guard on either URL here. -/
def isDuplicate (cur att : Att) : Bool :=
  att.fileSize == cur.fileSize
    || subList (lowerStr cur.url) (lowerStr att.url)
    || subList (lowerStr att.url) (lowerStr cur.url)

/-- The direct matches of `cur` collected by the first loop of `getDups`
(source lines 1146-1154). -/
def directDups (cur : Att) (baseLst : List Att) : List Att :=
  baseLst.filter (fun att => att.id != cur.id && isDuplicate cur att)

/-- The shrunken base list `secBaseLst` of `getDups` (source line 1157):
the base list minus `cur`'s id and the ids of its direct matches. -/
def secBase (cur : Att) (baseLst : List Att) : List Att :=
  let dupIds := (directDups cur baseLst).map (·.id)
  baseLst.filter (fun a => a.id != cur.id && !(dupIds.contains a.id))

/-- Order-preserving de-duplication, as `[...new Set(dups)]` (source line
1163): a JavaScript `Set` keeps the first occurrence in insertion order. -/
def jsSetDedup (l : List Att) : List Att :=
  l.foldl (fun acc x => if x ∈ acc then acc else acc ++ [x]) []

theorem length_filter_lt_of_mem_not {α : Type} {l : List α} {p : α → Bool} {a : α}
    (ha : a ∈ l) (hpa : p a = false) : (l.filter p).length < l.length := by
  induction l with
  | nil => cases ha
  | cons x t ih =>
    rcases List.mem_cons.mp ha with h | h
    · subst h
      simp only [List.filter_cons, hpa, List.length_cons]
      exact Nat.lt_succ_of_le (List.length_filter_le _ _)
    · simp only [List.filter_cons, List.length_cons]
      cases hp : p x
      · exact Nat.lt_succ_of_lt (ih h)
      · exact Nat.succ_lt_succ (ih h)

theorem secBase_length_lt {cur att : Att} {baseLst : List Att}
    (h : att ∈ directDups cur baseLst) :
    (secBase cur baseLst).length < baseLst.length := by
  have hmem : att ∈ baseLst := List.mem_of_mem_filter h
  apply length_filter_lt_of_mem_not hmem
  simp only [Bool.and_eq_false_iff, Bool.not_eq_false', List.contains_eq_any_beq,
    List.any_eq_true, List.mem_map]
  right
  exact ⟨att.id, ⟨att, h, rfl⟩, by simp⟩

/-- The transitive-closure grouping (source lines 1142-1164): collect the
direct matches, recurse on each of them over the shrunken base list,
append the query record, and de-duplicate set-wise. -/
def getDups (cur : Att) (baseLst : List Att) : List Att :=
  let dups := directDups cur baseLst
  let secDups := (dups.attach.map (fun x => getDups x.1 (secBase cur baseLst))).flatten
  jsSetDedup (dups ++ [cur] ++ secDups)
termination_by baseLst.length
decreasing_by
  exact secBase_length_lt x.2

/-- The selection loop of `getBest` (source lines 1166-1171): the running
best is replaced only on a strictly greater `lastModifiedTime`, so ties
keep the earlier record; an empty input leaves `null`. -/
def bestLoop (l : List Att) : Option Att :=
  l.foldl
    (fun acc att =>
      match acc with
      | none => some att
      | some e => if att.lastModifiedTime > e.lastModifiedTime then some att else some e)
    none

/-- The canonical selector `getBest` (source lines 1165-1173), with the
JavaScript failure mode made explicit: `dups.filter(a => a.id !== earliest.id)`
evaluates `earliest.id` once per element, so on an empty list the `null`
check never runs, while on a non-empty list a `null` best would raise a
`TypeError` at the first element. -/
def getBestE (dups : List Att) : Except String (Option Att × List Att) :=
  match dups, bestLoop dups with
  | [], e => .ok (e, [])
  | _ :: _, none => .error "TypeError: cannot read property id of null"
  | _ :: _, some b => .ok (some b, dups.filter (fun a => a.id != b.id))

/-- The unversioned cross-tier subsumption pass (source lines 1215-1226):
an unversioned attachment is planned for removal when some versioned
attachment has the same file size, or else when its title avoids
`excludeRegEx`, its URL is non-empty, and some versioned attachment has a
non-empty URL with one URL containing the other. -/
def unversionedPass (versioned notVersioned toRemove : List Att) : List Att :=
  notVersioned.foldl
    (fun tr att =>
      if versioned.any (fun a => a.fileSize == att.fileSize) then
        tr ++ [att]
      else if !matchExclude att.title && !(lowerStr att.url).isEmpty
          && versioned.any (fun a =>
            !(lowerStr a.url).isEmpty
              && (subList (lowerStr att.url) (lowerStr a.url)
                || subList (lowerStr a.url) (lowerStr att.url))) then
        tr ++ [att]
      else tr)
    toRemove

/-- The per-tier group-extraction loop (source lines 1234-1241, repeated at
1250-1256 and 1260-1266): walk the tier pool in order, skip records whose
id is already in `toRemove` or in `left`, and otherwise extract the
record's duplicate group from the pool, keep its best and enqueue the
rest.  A `null` best from the selector would fault on the id reads, which
is modelled as an error. -/
def passLoopE (base : List Att) :
    List Att → List Att → List Att → Except String (List Att × List Att)
  | [], toRemove, left => .ok (toRemove, left)
  | att :: rest, toRemove, left =>
    if (toRemove.map (·.id)).contains att.id || (left.map (·.id)).contains att.id then
      passLoopE base rest toRemove left
    else
      match getBestE (getDups att base) with
      | .error e => .error e
      | .ok (none, _) => .error "TypeError: cannot read property id of null"
      | .ok (some b, ds) => passLoopE base rest (toRemove ++ ds) (left ++ [b])

/-- The Published pass (source lines 1228-1246): if some Published record
is not Sci-Hub-titled, plan every Sci-Hub-titled one for removal and run
the group-extraction loop over the rest; otherwise call `getBest` directly
on the whole Published pool and plan its non-best members. -/
def publishedStage (versioned toRemove : List Att) : Except String (List Att) :=
  let base := versioned.filter (fun a => matchPublished a.title)
  if base.any (fun a => !matchSciHub a.title) then
    let toRemove := toRemove ++ base.filter (fun a => matchSciHub a.title)
    let base := base.filter (fun a => !matchSciHub a.title)
    match passLoopE base base toRemove [] with
    | .error e => .error e
    | .ok (tr, _) => .ok tr
  else
    match getBestE base with
    | .error e => .error e
    | .ok (_, ds) => .ok (toRemove ++ ds)

/-- The Accepted pass (source lines 1248-1256). -/
def acceptedStage (versioned toRemove : List Att) : Except String (List Att) :=
  let base := versioned.filter (fun a => matchAccepted a.title)
  match passLoopE base base toRemove [] with
  | .error e => .error e
  | .ok (tr, _) => .ok tr

/-- The Preprint pass (source lines 1258-1266). -/
def preprintStage (versioned toRemove : List Att) : Except String (List Att) :=
  let base := versioned.filter (fun a => matchPreprint a.title)
  match passLoopE base base toRemove [] with
  | .error e => .error e
  | .ok (tr, _) => .ok tr

/-- The whole planning half of `processRemoving` (source lines 1204-1266)
on the already-PDF-filtered attachment list: partition by the combined
version pattern, run the unversioned subsumption pass, then the
Published, Accepted and Preprint passes, each growing `toRemove`. -/
def planAtts (atts : List Att) : Except String (List Att) :=
  let versioned := atts.filter (fun a => matchCombined a.title)
  let notVersioned := atts.filter (fun a => !matchCombined a.title)
  let tr0 := unversionedPass versioned notVersioned []
  match publishedStage versioned tr0 with
  | .error e => .error e
  | .ok tr1 =>
    match acceptedStage versioned tr1 with
    | .error e => .error e
    | .ok tr2 =>
      match preprintStage versioned tr2 with
      | .error e => .error e
      | .ok tr3 => .ok tr3

/-- The removal executor (source lines 1268-1277) against a store oracle:
each planned id is handed to `trashTx`; a success bumps `removed`, a
caught store error bumps `errors`, and the loop continues either way. -/
def execPlan (store : Nat → Except String Unit) (plan : List Att) : Nat × Nat :=
  plan.foldl
    (fun acc att =>
      match store att.id with
      | .ok _ => (acc.1 + 1, acc.2)
      | .error _ => (acc.1, acc.2 + 1))
    (0, 0)

/-- The parent-record data `processRemoving` reads: regular-item status,
item type, and the child attachments. -/
structure Item where
  isRegular : Bool
  itemType : String
  atts : List Att
deriving Repr

/-- The whole `processRemoving` (source lines 1185-1278): skip non-regular
items, webpage items, and parents with fewer than two PDF attachments;
otherwise plan and then execute, returning the `removed`/`errors` counts. -/
def processRemovingE (store : Nat → Except String Unit) (item : Item) :
    Except String (Nat × Nat) :=
  if !item.isRegular then .ok (0, 0)
  else if item.itemType == "webpage" then .ok (0, 0)
  else
    let attachments := item.atts.filter (·.isPDF)
    if attachments.length < 2 then .ok (0, 0)
    else
      match planAtts attachments with
      | .error e => .error e
      | .ok plan => .ok (execPlan store plan)

/-- Version tiers of the specification's Version Classifier. -/
inductive Tier where
  | published
  | accepted
  | preprint
  | unversioned
deriving DecidableEq, Repr

/-- Modelled from the spec: the Version Classifier's first-match tier with
priority order published > accepted > preprint; no match is Unversioned. -/
def firstMatchTier (t : String) : Tier :=
  if matchPublished t then .published
  else if matchAccepted t then .accepted
  else if matchPreprint t then .preprint
  else .unversioned

/-- Modelled from the spec: the specification's `isDuplicate(a, b)`, true
when the file sizes agree, or both source URLs are non-empty and one is a
case-insensitive substring of the other. -/
def isDuplicateSpec (a b : Att) : Prop :=
  a.fileSize = b.fileSize
    ∨ (a.url ≠ "" ∧ b.url ≠ ""
        ∧ (subList (lowerStr a.url) (lowerStr b.url) = true
            ∨ subList (lowerStr b.url) (lowerStr a.url) = true))

instance (a b : Att) : Decidable (isDuplicateSpec a b) := by
  unfold isDuplicateSpec; infer_instance

/-- The group-extraction loop of one tier pass viewed as a producer of the
groups themselves: walk the pool in order, skip records whose id was
already assigned, and otherwise emit `getDups att base` and mark all of
its ids assigned.  This is the loop of source lines 1234-1241 with the
`getBest` split of each group left out: the loop marks exactly the whole
group (`best` into `left`, the rest into `toRemove`) as assigned. -/
def groupGo (base : List Att) : List Att → List Nat → List (List Att)
  | [], _ => []
  | att :: rest, assigned =>
    if assigned.contains att.id then groupGo base rest assigned
    else getDups att base :: groupGo base rest (assigned ++ (getDups att base).map (·.id))

/-- Feeding one pool once into the duplicate-group computation. -/
def extractGroups (base : List Att) : List (List Att) :=
  groupGo base base []

theorem getDups_eq (cur : Att) (base : List Att) :
    getDups cur base
      = jsSetDedup (directDups cur base ++ [cur]
          ++ ((directDups cur base).map
                (fun a => getDups a (secBase cur base))).flatten) := by
  rw [getDups]
  simp

theorem mem_foldl_dedup (l : List Att) (acc : List Att) (x : Att) :
    x ∈ l.foldl (fun acc x => if x ∈ acc then acc else acc ++ [x]) acc
      ↔ x ∈ acc ∨ x ∈ l := by
  induction l generalizing acc with
  | nil => simp
  | cons a t ih =>
    simp only [List.foldl_cons, ih, List.mem_cons]
    by_cases h : a ∈ acc
    · simp only [if_pos h]
      constructor
      · rintro (h' | h') <;> tauto
      · rintro (h' | h' | h')
        · tauto
        · subst h'; tauto
        · tauto
    · simp only [if_neg h, List.mem_append, List.mem_singleton]
      tauto

theorem mem_jsSetDedup {l : List Att} {x : Att} : x ∈ jsSetDedup l ↔ x ∈ l := by
  unfold jsSetDedup
  rw [mem_foldl_dedup]
  simp

theorem mem_directDups {cur att : Att} {base : List Att} :
    att ∈ directDups cur base
      ↔ att ∈ base ∧ att.id ≠ cur.id ∧ isDuplicate cur att = true := by
  simp [directDups, List.mem_filter, and_assoc]

theorem mem_secBase {cur a : Att} {base : List Att} :
    a ∈ secBase cur base
      ↔ a ∈ base ∧ a.id ≠ cur.id ∧ a.id ∉ (directDups cur base).map (·.id) := by
  simp [secBase, List.mem_filter, and_assoc, List.contains_eq_any_beq]

theorem mem_getDups_parts {cur z : Att} {base : List Att} :
    z ∈ getDups cur base
      ↔ z ∈ directDups cur base ∨ z = cur
          ∨ ∃ att ∈ directDups cur base, z ∈ getDups att (secBase cur base) := by
  rw [getDups_eq, mem_jsSetDedup]
  simp only [List.mem_append, List.mem_singleton, List.mem_flatten, List.mem_map]
  constructor
  · rintro ((h | h) | h)
    · exact Or.inl h
    · exact Or.inr (Or.inl h)
    · obtain ⟨l, ⟨a, ha, rfl⟩, hz⟩ := h
      exact Or.inr (Or.inr ⟨a, ha, hz⟩)
  · rintro (h | h | ⟨a, ha, hz⟩)
    · exact Or.inl (Or.inl h)
    · exact Or.inl (Or.inr h)
    · exact Or.inr ⟨getDups a (secBase cur base), ⟨a, ha, rfl⟩, hz⟩

theorem cur_mem_getDups (cur : Att) (base : List Att) : cur ∈ getDups cur base := by
  rw [mem_getDups_parts]; tauto

theorem directDups_subset_getDups {cur att : Att} {base : List Att}
    (h : att ∈ directDups cur base) : att ∈ getDups cur base := by
  rw [mem_getDups_parts]; tauto

theorem getDups_ne_nil (cur : Att) (base : List Att) : getDups cur base ≠ [] :=
  fun h => by simpa [h] using cur_mem_getDups cur base

theorem subList_nil_left (l : List Nat) : subList [] l = true := by
  cases l <;> simp [subList, leadsList]

theorem lowerStr_empty_iff {s : String} : lowerStr s = [] ↔ s = "" := by
  constructor
  · intro h
    have : s.data = [] := by
      cases hd : s.data with
      | nil => rfl
      | cons a t => rw [lowerStr, hd] at h; simp at h
    cases s; simp_all
  · intro h; subst h; rfl

theorem isDuplicate_of_empty_url {a b : Att} (h : a.url = "" ∨ b.url = "") :
    isDuplicate a b = true := by
  unfold isDuplicate
  rcases h with h | h
  · have : lowerStr a.url = [] := lowerStr_empty_iff.mpr h
    rw [this, subList_nil_left]
    simp
  · have : lowerStr b.url = [] := lowerStr_empty_iff.mpr h
    rw [this, subList_nil_left]
    simp

theorem isDuplicate_symm (a b : Att) : isDuplicate a b = isDuplicate b a := by
  unfold isDuplicate
  cases h : (a.fileSize == b.fileSize) with
  | true =>
    have h' : (b.fileSize == a.fileSize) = true := by
      simp only [beq_iff_eq] at h ⊢; omega
    simp [h, h']
  | false =>
    have h' : (b.fileSize == a.fileSize) = false := by
      simp only [beq_eq_false_iff_ne, ne_eq] at h ⊢; omega
    simp [h, h', Bool.or_comm]

/-- The duplicate-adjacency relation underlying `getDups`: distinct ids and
a fuzzy match. -/
def edgeRel (a b : Att) : Prop := a.id ≠ b.id ∧ isDuplicate a b = true

theorem edgeRel_symm {a b : Att} (h : edgeRel a b) : edgeRel b a :=
  ⟨fun e => h.1 e.symm, by rw [isDuplicate_symm]; exact h.2⟩

/-- One step of duplicate adjacency landing inside `base`. -/
def StepR (base : List Att) (x y : Att) : Prop := y ∈ base ∧ edgeRel x y

/-- Reachability through duplicate adjacency with all visited records taken
from `base`: the transitive closure `getDups` is meant to compute. -/
def ReachR (base : List Att) : Att → Att → Prop :=
  Relation.ReflTransGen (StepR base)

theorem reachR_mono {base base' : List Att} (hsub : ∀ x, x ∈ base → x ∈ base')
    {a z : Att} (h : ReachR base a z) : ReachR base' a z := by
  induction h with
  | refl => exact Relation.ReflTransGen.refl
  | tail _ hstep ih =>
    exact Relation.ReflTransGen.tail ih ⟨hsub _ hstep.1, hstep.2⟩

theorem reachR_mem {base : List Att} {a z : Att} (h : ReachR base a z) :
    z = a ∨ z ∈ base := by
  induction h with
  | refl => exact Or.inl rfl
  | tail _ hstep _ => exact Or.inr hstep.1

theorem reachR_symm {base : List Att} {a z : Att} (ha : a ∈ base)
    (h : ReachR base a z) : ReachR base z a := by
  induction h with
  | refl => exact Relation.ReflTransGen.refl
  | tail hr hstep ih =>
    rename_i b c
    have hb : b ∈ base := by
      rcases reachR_mem hr with h' | h'
      · rwa [h']
      · exact h'
    exact Relation.ReflTransGen.head ⟨hb, edgeRel_symm hstep.2⟩ ih

theorem getDups_subset {cur z : Att} {base : List Att}
    (h : z ∈ getDups cur base) : z = cur ∨ z ∈ base := by
  have main : ∀ n (b : List Att), b.length ≤ n → ∀ (c z : Att),
      z ∈ getDups c b → z = c ∨ z ∈ b := by
    intro n
    induction n with
    | zero =>
      intro b hb c z hz
      have hbnil : b = [] := List.length_eq_zero.mp (Nat.le_zero.mp hb)
      subst hbnil
      rw [mem_getDups_parts] at hz
      rcases hz with h' | h' | ⟨a, ha, _⟩
      · rw [mem_directDups] at h'; exact absurd h'.1 (by simp)
      · exact Or.inl h'
      · rw [mem_directDups] at ha; exact absurd ha.1 (by simp)
    | succ n ih =>
      intro b hb c z hz
      rw [mem_getDups_parts] at hz
      rcases hz with h' | h' | ⟨a, ha, hz⟩
      · exact Or.inr (mem_directDups.mp h').1
      · exact Or.inl h'
      · have hlt : (secBase c b).length < b.length := secBase_length_lt ha
        have hle : (secBase c b).length ≤ n := by omega
        rcases ih _ hle _ _ hz with rfl | h'
        · exact Or.inr (mem_directDups.mp ha).1
        · exact Or.inr (mem_secBase.mp h').1
  exact main base.length base (le_refl _) cur z h

theorem getDups_sound {cur z : Att} {base : List Att}
    (h : z ∈ getDups cur base) : z = cur ∨ (z ∈ base ∧ ReachR base cur z) := by
  have main : ∀ n (b : List Att), b.length ≤ n → ∀ (c z : Att),
      z ∈ getDups c b → z = c ∨ (z ∈ b ∧ ReachR b c z) := by
    intro n
    induction n with
    | zero =>
      intro b hb c z hz
      have hbnil : b = [] := List.length_eq_zero.mp (Nat.le_zero.mp hb)
      subst hbnil
      rcases getDups_subset hz with h' | h'
      · exact Or.inl h'
      · exact absurd h' (by simp)
    | succ n ih =>
      intro b hb c z hz
      rw [mem_getDups_parts] at hz
      rcases hz with h' | h' | ⟨a, ha, hz⟩
      · rw [mem_directDups] at h'
        exact Or.inr ⟨h'.1,
          Relation.ReflTransGen.single ⟨h'.1, fun e => h'.2.1 e.symm, h'.2.2⟩⟩
      · exact Or.inl h'
      · have hlt : (secBase c b).length < b.length := secBase_length_lt ha
        have hle : (secBase c b).length ≤ n := by omega
        have hadd := mem_directDups.mp ha
        have hstep : ReachR b c a :=
          Relation.ReflTransGen.single ⟨hadd.1, fun e => hadd.2.1 e.symm, hadd.2.2⟩
        rcases ih _ hle _ _ hz with h' | h'
        · subst h'
          exact Or.inr ⟨hadd.1, hstep⟩
        · refine Or.inr ⟨(mem_secBase.mp h'.1).1, ?_⟩
          refine Relation.ReflTransGen.trans hstep ?_
          exact reachR_mono (fun x hx => (mem_secBase.mp hx).1) h'.2
  exact main base.length base (le_refl _) cur z h

/-- Well-formedness of a `getDups` call: the base list has pairwise
distinct ids and no member other than `cur` itself carries `cur`'s id. -/
def IdOk (cur : Att) (base : List Att) : Prop :=
  (base.map (·.id)).Nodup ∧ ∀ w ∈ base, w.id = cur.id → w = cur

theorem idOk_of_mem {cur : Att} {base : List Att}
    (hn : (base.map (·.id)).Nodup) (hc : cur ∈ base) : IdOk cur base :=
  ⟨hn, fun w hw he => List.inj_on_of_nodup_map hn hw hc he⟩

theorem idOk_rec {cur att : Att} {base : List Att} (hok : IdOk cur base)
    (ha : att ∈ directDups cur base) : IdOk att (secBase cur base) := by
  constructor
  · have hsub : List.Sublist (secBase cur base) base := List.filter_sublist _
    exact List.Nodup.sublist (List.Sublist.map (·.id) hsub) hok.1
  · intro w hw he
    exfalso
    have := (mem_secBase.mp hw).2.2
    exact this (by rw [he]; exact List.mem_map.mpr ⟨att, ha, rfl⟩)

theorem id_eq_of_mem {cur : Att} {base : List Att} (hok : IdOk cur base)
    {x y : Att} (hx : x ∈ base) (hy : y ∈ base) (he : x.id = y.id) : x = y :=
  List.inj_on_of_nodup_map hok.1 hx hy he

theorem getDups_closed {cur : Att} {base : List Att} (hok : IdOk cur base)
    {y z : Att} (hy : y ∈ getDups cur base) (hz : z ∈ base)
    (he : edgeRel y z) : z ∈ getDups cur base := by
  have main : ∀ n (b : List Att), b.length ≤ n → ∀ (c : Att), IdOk c b →
      ∀ (y z : Att), y ∈ getDups c b → z ∈ b → edgeRel y z →
      z ∈ getDups c b := by
    intro n
    induction n with
    | zero =>
      intro b hb c _ y z _ hz _
      have hbnil : b = [] := List.length_eq_zero.mp (Nat.le_zero.mp hb)
      subst hbnil
      exact absurd hz (by simp)
    | succ n ih =>
      intro b hb c hok y z hy hz he
      by_cases hzc : z.id = c.id
      · have : z = c := hok.2 z hz hzc
        subst this
        exact cur_mem_getDups _ _
      by_cases hzd : z.id ∈ (directDups c b).map (·.id)
      · obtain ⟨d, hd, hdid⟩ := List.mem_map.mp hzd
        have : d = z :=
          id_eq_of_mem hok (mem_directDups.mp hd).1 hz hdid
        subst this
        exact directDups_subset_getDups hd
      have hzsec : z ∈ secBase c b := mem_secBase.mpr ⟨hz, hzc, hzd⟩
      rw [mem_getDups_parts] at hy
      rcases hy with hy | hy | ⟨a, ha, hy⟩
      · -- y is a direct match: z is a direct match of y inside the
        -- shrunken base, hence inside y's recursive call
        have hzin : z ∈ directDups y (secBase c b) :=
          mem_directDups.mpr ⟨hzsec, fun e => he.1 e.symm, he.2⟩
        rw [mem_getDups_parts]
        exact Or.inr (Or.inr ⟨y, hy, directDups_subset_getDups hzin⟩)
      · -- y is the query record: z is one of its direct matches
        subst hy
        exact directDups_subset_getDups
          (mem_directDups.mpr ⟨hz, fun e => he.1 e.symm, he.2⟩)
      · -- y was found in the recursive call of a direct match a
        have hlt : (secBase c b).length < b.length := secBase_length_lt ha
        have hle : (secBase c b).length ≤ n := by omega
        have hz' : z ∈ getDups a (secBase c b) :=
          ih _ hle _ (idOk_rec hok ha) _ _ hy hzsec he
        rw [mem_getDups_parts]
        exact Or.inr (Or.inr ⟨a, ha, hz'⟩)
  exact main base.length base (le_refl _) cur hok y z hy hz he

theorem getDups_complete {cur z : Att} {base : List Att} (hok : IdOk cur base)
    (h : ReachR base cur z) : z = cur ∨ z ∈ getDups cur base := by
  induction h with
  | refl => exact Or.inl rfl
  | tail hr hstep ih =>
    rename_i b c
    have hb : b ∈ getDups cur base := by
      rcases ih with h' | h'
      · rw [h']; exact cur_mem_getDups _ _
      · exact h'
    exact Or.inr (getDups_closed hok hb hstep.1 hstep.2)

/-- The characterization of `getDups`: over a well-formed base list it
returns the query record together with exactly the members of the base
list reachable from it through duplicate adjacency. -/
theorem mem_getDups_char {cur z : Att} {base : List Att} (hok : IdOk cur base) :
    z ∈ getDups cur base ↔ z = cur ∨ (z ∈ base ∧ ReachR base cur z) := by
  constructor
  · exact getDups_sound
  · rintro (h | h)
    · rw [h]; exact cur_mem_getDups _ _
    · rcases getDups_complete hok h.2 with h' | h'
      · rw [h']; exact cur_mem_getDups _ _
      · exact h'

/-- The characterization when the query record sits in the base list. -/
theorem mem_getDups_char_mem {cur z : Att} {base : List Att}
    (hn : (base.map (·.id)).Nodup) (hc : cur ∈ base) :
    z ∈ getDups cur base ↔ z ∈ base ∧ ReachR base cur z := by
  rw [mem_getDups_char (idOk_of_mem hn hc)]
  constructor
  · rintro (h | h)
    · subst h; exact ⟨hc, Relation.ReflTransGen.refl⟩
    · exact h
  · exact fun h => Or.inr h

theorem natContains_iff {l : List Nat} {x : Nat} : l.contains x = true ↔ x ∈ l := by
  simp [List.contains_eq_any_beq]

theorem groupGo_groups {base : List Att} :
    ∀ {pend : List Att} {asg : List Nat} {g : List Att},
      g ∈ groupGo base pend asg →
      ∃ a, a ∈ pend ∧ a.id ∉ asg ∧ g = getDups a base := by
  intro pend
  induction pend with
  | nil => intro asg g h; simp [groupGo] at h
  | cons att rest ih =>
    intro asg g h
    rw [groupGo] at h
    by_cases hc : asg.contains att.id
    · rw [if_pos hc] at h
      obtain ⟨a, ha, hna, hg⟩ := ih h
      exact ⟨a, List.mem_cons_of_mem _ ha, hna, hg⟩
    · rw [if_neg hc] at h
      rcases List.mem_cons.mp h with h | h
      · refine ⟨att, List.mem_cons_self _ _, ?_, h⟩
        intro hmem
        exact hc (natContains_iff.mpr hmem)
      · obtain ⟨a, ha, hna, hg⟩ := ih h
        refine ⟨a, List.mem_cons_of_mem _ ha, ?_, hg⟩
        intro hmem
        exact hna (List.mem_append_left _ hmem)

theorem groupGo_cover {base : List Att} (hn : (base.map (·.id)).Nodup) :
    ∀ {pend : List Att} {asg : List Nat},
      (∀ x ∈ pend, x ∈ base) → ∀ z ∈ pend, z.id ∉ asg →
      z ∈ (groupGo base pend asg).flatten := by
  intro pend
  induction pend with
  | nil => intro asg _ z hz; simp at hz
  | cons att rest ih =>
    intro asg hsub z hz hza
    rw [groupGo]
    by_cases hc : asg.contains att.id
    · rw [if_pos hc]
      rcases List.mem_cons.mp hz with rfl | hz'
      · exact absurd (natContains_iff.mp hc) hza
      · exact ih (fun x hx => hsub x (List.mem_cons_of_mem _ hx)) z hz' hza
    · rw [if_neg hc]
      rw [List.flatten_cons]
      rcases List.mem_cons.mp hz with rfl | hz'
      · exact List.mem_append_left _ (cur_mem_getDups _ _)
      · by_cases hzg : z.id ∈ (getDups att base).map (·.id)
        · obtain ⟨d, hd, hdid⟩ := List.mem_map.mp hzg
          have hd' : d ∈ base := by
            rcases getDups_subset hd with rfl | h'
            · exact hsub _ (List.mem_cons_self _ _)
            · exact h'
          have : d = z :=
            List.inj_on_of_nodup_map hn hd' (hsub _ hz) hdid
          subst this
          exact List.mem_append_left _ hd
        · refine List.mem_append_right _ ?_
          refine ih (fun x hx => hsub x (List.mem_cons_of_mem _ hx)) z hz' ?_
          intro hmem
          rcases List.mem_append.mp hmem with h' | h'
          · exact hza h'
          · exact hzg h'

theorem groupGo_subset {base : List Att} :
    ∀ {pend : List Att} {asg : List Nat} {g : List Att},
      g ∈ groupGo base pend asg → (∀ x ∈ pend, x ∈ base) →
      ∀ z ∈ g, z ∈ base := by
  intro pend asg g hg hsub z hz
  obtain ⟨a, ha, _, rfl⟩ := groupGo_groups hg
  rcases getDups_subset hz with rfl | h'
  · exact hsub _ ha
  · exact h'

theorem groupGo_disjoint {base : List Att} (hn : (base.map (·.id)).Nodup) :
    ∀ {pend : List Att} {asg : List Nat},
      (∀ x ∈ pend, x ∈ base) →
      List.Pairwise (fun g h => ∀ z, z ∈ g → z ∉ h) (groupGo base pend asg) := by
  intro pend
  induction pend with
  | nil => intro asg _; simp [groupGo]
  | cons att rest ih =>
    intro asg hsub
    have hsub' : ∀ x ∈ rest, x ∈ base :=
      fun x hx => hsub x (List.mem_cons_of_mem _ hx)
    rw [groupGo]
    by_cases hc : asg.contains att.id
    · rw [if_pos hc]; exact ih hsub'
    · rw [if_neg hc]
      refine List.Pairwise.cons ?_ (ih hsub')
      intro h hh z hzg hzh
      obtain ⟨b, hb, hbna, rfl⟩ := groupGo_groups hh
      have hatt : att ∈ base := hsub _ (List.mem_cons_self _ _)
      have hbb : b ∈ base := hsub' _ hb
      have hg1 := (mem_getDups_char_mem hn hatt).mp hzg
      have hg2 := (mem_getDups_char_mem hn hbb).mp hzh
      have hab : ReachR base att b :=
        Relation.ReflTransGen.trans hg1.2 (reachR_symm hbb hg2.2)
      have hbmem : b ∈ getDups att base :=
        (mem_getDups_char_mem hn hatt).mpr ⟨hbb, hab⟩
      exact hbna (List.mem_append_right _ (List.mem_map.mpr ⟨b, hbmem, rfl⟩))

theorem extractGroups_cover {base : List Att} (hn : (base.map (·.id)).Nodup) :
    ∀ z, z ∈ (extractGroups base).flatten ↔ z ∈ base := by
  intro z
  constructor
  · intro h
    obtain ⟨g, hg, hzg⟩ := List.mem_flatten.mp h
    exact groupGo_subset hg (fun x hx => hx) z hzg
  · intro h
    exact groupGo_cover hn (fun x hx => hx) z h (by simp)

theorem extractGroups_disjoint {base : List Att} (hn : (base.map (·.id)).Nodup) :
    List.Pairwise (fun g h => ∀ z, z ∈ g → z ∉ h) (extractGroups base) :=
  groupGo_disjoint hn (fun x hx => hx)

/-- Greatest `lastModifiedTime` occurring in a list (0 when empty). -/
def maxMt (l : List Att) : Nat :=
  l.foldl (fun m a => max m a.lastModifiedTime) 0

theorem foldl_max_acc :
    ∀ (l : List Att) (m : Nat),
      l.foldl (fun acc a => max acc a.lastModifiedTime) m
        = max m (l.foldl (fun acc a => max acc a.lastModifiedTime) 0) := by
  intro l
  induction l with
  | nil => intro m; simp
  | cons a t ih =>
    intro m
    simp only [List.foldl_cons]
    rw [ih (max m a.lastModifiedTime), ih (max 0 a.lastModifiedTime)]
    omega

theorem maxMt_cons (a : Att) (t : List Att) :
    maxMt (a :: t) = max a.lastModifiedTime (maxMt t) := by
  unfold maxMt
  simp only [List.foldl_cons]
  rw [foldl_max_acc]
  omega

theorem mem_le_maxMt {l : List Att} {z : Att} (h : z ∈ l) :
    z.lastModifiedTime ≤ maxMt l := by
  induction l with
  | nil => cases h
  | cons a t ih =>
    rw [maxMt_cons]
    rcases List.mem_cons.mp h with rfl | h'
    · omega
    · have := ih h'; omega

theorem bestLoop_cons (a : Att) (t : List Att) :
    bestLoop (a :: t)
      = t.foldl
          (fun acc att =>
            match acc with
            | none => some att
            | some e =>
              if att.lastModifiedTime > e.lastModifiedTime then some att else some e)
          (some a) := rfl

theorem bestLoop_some (l : List Att) (h : l ≠ []) : ∃ b, bestLoop l = some b := by
  cases l with
  | nil => exact absurd rfl h
  | cons a t =>
    rw [bestLoop_cons]
    clear h
    induction t generalizing a with
    | nil => exact ⟨a, rfl⟩
    | cons x t' ih =>
      simp only [List.foldl_cons]
      by_cases hx : x.lastModifiedTime > a.lastModifiedTime
      · rw [if_pos hx]; exact ih x
      · rw [if_neg hx]; exact ih a

theorem bestLoop_eq_none_iff {l : List Att} : bestLoop l = none ↔ l = [] := by
  constructor
  · intro h
    by_contra hne
    obtain ⟨b, hb⟩ := bestLoop_some l hne
    rw [h] at hb
    cases hb
  · intro h; subst h; rfl

theorem bestLoop_find (l : List Att) (h : l ≠ []) :
    bestLoop l = l.find? (fun z => z.lastModifiedTime == maxMt l) := by
  cases l with
  | nil => exact absurd rfl h
  | cons b t =>
    clear h
    induction t generalizing b with
    | nil =>
      rw [bestLoop_cons]
      simp [maxMt_cons, maxMt, List.find?]
    | cons x t' ih =>
      have hM : maxMt ((if x.lastModifiedTime > b.lastModifiedTime then x else b) :: t')
          = maxMt (b :: x :: t') := by
        by_cases hx : x.lastModifiedTime > b.lastModifiedTime
        · rw [if_pos hx, maxMt_cons, maxMt_cons, maxMt_cons]; omega
        · rw [if_neg hx, maxMt_cons, maxMt_cons, maxMt_cons]; omega
      have hstep : bestLoop (b :: x :: t')
          = bestLoop ((if x.lastModifiedTime > b.lastModifiedTime then x else b) :: t') := by
        rw [bestLoop_cons, bestLoop_cons]
        by_cases hx : x.lastModifiedTime > b.lastModifiedTime
        · simp only [List.foldl_cons, if_pos hx]
        · simp only [List.foldl_cons, if_neg hx]
      rw [hstep, ih, hM]
      by_cases hx : x.lastModifiedTime > b.lastModifiedTime
      · rw [if_pos hx]
        have hxle : x.lastModifiedTime ≤ maxMt (b :: x :: t') :=
          mem_le_maxMt (by simp)
        have hbne : (b.lastModifiedTime == maxMt (b :: x :: t')) = false := by
          simp only [beq_eq_false_iff_ne, ne_eq]
          omega
        conv_rhs => rw [List.find?_cons_of_neg _ (by simp [hbne])]
      · rw [if_neg hx]
        by_cases hb : b.lastModifiedTime = maxMt (b :: x :: t')
        · conv_lhs => rw [List.find?_cons_of_pos _ (by simp [hb])]
          conv_rhs => rw [List.find?_cons_of_pos _ (by simp [hb])]
        · have hble : b.lastModifiedTime ≤ maxMt (b :: x :: t') :=
            mem_le_maxMt (by simp)
          have hxne : (x.lastModifiedTime == maxMt (b :: x :: t')) = false := by
            simp only [beq_eq_false_iff_ne, ne_eq]
            omega
          conv_lhs => rw [List.find?_cons_of_neg _ (by simp [hb])]
          conv_rhs => rw [List.find?_cons_of_neg _ (by simp [hb]),
            List.find?_cons_of_neg _ (by simp [hxne])]

theorem getBestE_nil : getBestE [] = .ok (none, []) := rfl

theorem getBestE_ok {l : List Att} (h : l ≠ []) :
    ∃ b, bestLoop l = some b
      ∧ getBestE l = .ok (some b, l.filter (fun a => a.id != b.id)) := by
  obtain ⟨b, hb⟩ := bestLoop_some l h
  cases l with
  | nil => exact absurd rfl h
  | cons a t =>
    refine ⟨b, hb, ?_⟩
    unfold getBestE
    rw [hb]

theorem getBestE_never_err (l : List Att) : ∃ r, getBestE l = .ok r := by
  by_cases h : l = []
  · subst h; exact ⟨(none, []), rfl⟩
  · obtain ⟨b, _, hE⟩ := getBestE_ok h
    exact ⟨_, hE⟩

theorem getBestE_snd_subset {l : List Att} {b : Option Att} {ds : List Att}
    (h : getBestE l = .ok (b, ds)) : ∀ z ∈ ds, z ∈ l := by
  by_cases hl : l = []
  · subst hl
    rw [getBestE_nil] at h
    cases h
    simp
  · obtain ⟨b', _, hE⟩ := getBestE_ok hl
    rw [hE] at h
    cases h
    exact fun z hz => List.mem_of_mem_filter hz

theorem passLoopE_spec {base : List Att} :
    ∀ (pend toRemove left : List Att), (∀ x ∈ pend, x ∈ base) →
      ∃ tr lf, passLoopE base pend toRemove left = .ok (tr, lf)
        ∧ (∀ z ∈ toRemove, z ∈ tr)
        ∧ (∀ z ∈ tr, z ∈ toRemove ∨ z ∈ base) := by
  intro pend
  induction pend with
  | nil =>
    intro toRemove left _
    exact ⟨toRemove, left, rfl, fun z hz => hz, fun z hz => Or.inl hz⟩
  | cons att rest ih =>
    intro toRemove left hsub
    have hatt : att ∈ base := hsub _ (List.mem_cons_self _ _)
    have hsub' : ∀ x ∈ rest, x ∈ base :=
      fun x hx => hsub x (List.mem_cons_of_mem _ hx)
    rw [passLoopE]
    by_cases hg :
        ((toRemove.map (·.id)).contains att.id || (left.map (·.id)).contains att.id) = true
    · rw [if_pos hg]
      exact ih toRemove left hsub'
    · rw [if_neg hg]
      obtain ⟨b, hbl, hE⟩ := getBestE_ok (getDups_ne_nil att base)
      rw [hE]
      obtain ⟨tr, lf, hrec, hmono, hnew⟩ :=
        ih (toRemove ++ (getDups att base).filter (fun a => a.id != b.id))
          (left ++ [b]) hsub'
      refine ⟨tr, lf, hrec, ?_, ?_⟩
      · exact fun z hz => hmono z (List.mem_append_left _ hz)
      · intro z hz
        rcases hnew z hz with h' | h'
        · rcases List.mem_append.mp h' with h'' | h''
          · exact Or.inl h''
          · have hzg : z ∈ getDups att base := List.mem_of_mem_filter h''
            rcases getDups_subset hzg with rfl | h'''
            · exact Or.inr hatt
            · exact Or.inr h'''
        · exact Or.inr h'

theorem publishedStage_spec (v trIn : List Att) :
    ∃ tr, publishedStage v trIn = .ok tr
      ∧ (∀ z ∈ trIn, z ∈ tr)
      ∧ (∀ z ∈ tr, z ∈ trIn ∨ z ∈ v.filter (fun a => matchPublished a.title)) := by
  unfold publishedStage
  by_cases hb :
      ((v.filter (fun a => matchPublished a.title)).any (fun a => !matchSciHub a.title)) = true
  · rw [if_pos hb]
    obtain ⟨tr, lf, hrec, hmono, hnew⟩ := @passLoopE_spec
      ((v.filter (fun a => matchPublished a.title)).filter
        (fun a => !matchSciHub a.title))
      ((v.filter (fun a => matchPublished a.title)).filter
        (fun a => !matchSciHub a.title))
      (trIn ++ (v.filter (fun a => matchPublished a.title)).filter
        (fun a => matchSciHub a.title))
      [] (fun x hx => hx)
    refine ⟨tr, ?_, ?_, ?_⟩
    · show (match passLoopE
          ((v.filter (fun a => matchPublished a.title)).filter (fun a => !matchSciHub a.title))
          ((v.filter (fun a => matchPublished a.title)).filter (fun a => !matchSciHub a.title))
          (trIn ++ (v.filter (fun a => matchPublished a.title)).filter
            (fun a => matchSciHub a.title)) [] with
        | Except.error e => Except.error e
        | Except.ok (tr, _) => Except.ok tr) = Except.ok tr
      rw [hrec]
    · exact fun z hz => hmono z (List.mem_append_left _ hz)
    · intro z hz
      rcases hnew z hz with h' | h'
      · rcases List.mem_append.mp h' with h'' | h''
        · exact Or.inl h''
        · exact Or.inr (List.mem_of_mem_filter h'')
      · exact Or.inr (List.mem_of_mem_filter h')
  · rw [if_neg hb]
    obtain ⟨⟨ob, ds⟩, hE⟩ := getBestE_never_err (v.filter (fun a => matchPublished a.title))
    refine ⟨trIn ++ ds, ?_, fun z hz => List.mem_append_left _ hz, ?_⟩
    · show (match getBestE (v.filter (fun a => matchPublished a.title)) with
        | Except.error e => Except.error e
        | Except.ok (_, ds) => Except.ok (trIn ++ ds)) = Except.ok (trIn ++ ds)
      rw [hE]
    · intro z hz
      rcases List.mem_append.mp hz with h' | h'
      · exact Or.inl h'
      · exact Or.inr (getBestE_snd_subset hE z h')

theorem acceptedStage_spec (v trIn : List Att) :
    ∃ tr, acceptedStage v trIn = .ok tr
      ∧ (∀ z ∈ trIn, z ∈ tr)
      ∧ (∀ z ∈ tr, z ∈ trIn ∨ z ∈ v.filter (fun a => matchAccepted a.title)) := by
  unfold acceptedStage
  obtain ⟨tr, lf, hrec, hmono, hnew⟩ := @passLoopE_spec
    (v.filter (fun a => matchAccepted a.title))
    (v.filter (fun a => matchAccepted a.title)) trIn [] (fun x hx => hx)
  refine ⟨tr, ?_, hmono, hnew⟩
  show (match passLoopE (v.filter (fun a => matchAccepted a.title))
      (v.filter (fun a => matchAccepted a.title)) trIn [] with
    | Except.error e => Except.error e
    | Except.ok (tr, _) => Except.ok tr) = Except.ok tr
  rw [hrec]

theorem preprintStage_spec (v trIn : List Att) :
    ∃ tr, preprintStage v trIn = .ok tr
      ∧ (∀ z ∈ trIn, z ∈ tr)
      ∧ (∀ z ∈ tr, z ∈ trIn ∨ z ∈ v.filter (fun a => matchPreprint a.title)) := by
  unfold preprintStage
  obtain ⟨tr, lf, hrec, hmono, hnew⟩ := @passLoopE_spec
    (v.filter (fun a => matchPreprint a.title))
    (v.filter (fun a => matchPreprint a.title)) trIn [] (fun x hx => hx)
  refine ⟨tr, ?_, hmono, hnew⟩
  show (match passLoopE (v.filter (fun a => matchPreprint a.title))
      (v.filter (fun a => matchPreprint a.title)) trIn [] with
    | Except.error e => Except.error e
    | Except.ok (tr, _) => Except.ok tr) = Except.ok tr
  rw [hrec]

theorem planAtts_spec (atts : List Att) :
    ∃ p, planAtts atts = .ok p
      ∧ ∀ z ∈ unversionedPass (atts.filter (fun a => matchCombined a.title))
          (atts.filter (fun a => !matchCombined a.title)) [], z ∈ p := by
  unfold planAtts
  obtain ⟨t1, h1, h1m, _⟩ := publishedStage_spec
    (atts.filter (fun a => matchCombined a.title))
    (unversionedPass (atts.filter (fun a => matchCombined a.title))
      (atts.filter (fun a => !matchCombined a.title)) [])
  obtain ⟨t2, h2, h2m, _⟩ := acceptedStage_spec
    (atts.filter (fun a => matchCombined a.title)) t1
  obtain ⟨t3, h3, h3m, _⟩ := preprintStage_spec
    (atts.filter (fun a => matchCombined a.title)) t2
  refine ⟨t3, ?_, fun z hz => h3m z (h2m z (h1m z hz))⟩
  show (match publishedStage (atts.filter (fun a => matchCombined a.title))
      (unversionedPass (atts.filter (fun a => matchCombined a.title))
        (atts.filter (fun a => !matchCombined a.title)) []) with
    | Except.error e => Except.error e
    | Except.ok tr1 =>
      match acceptedStage (atts.filter (fun a => matchCombined a.title)) tr1 with
      | Except.error e => Except.error e
      | Except.ok tr2 =>
        match preprintStage (atts.filter (fun a => matchCombined a.title)) tr2 with
        | Except.error e => Except.error e
        | Except.ok tr3 => Except.ok tr3) = Except.ok t3
  simp only [h1, h2, h3]

theorem unversionedPass_mono {v : List Att} :
    ∀ (nv tr : List Att), ∀ z ∈ tr, z ∈ unversionedPass v nv tr := by
  intro nv
  induction nv with
  | nil => intro tr z hz; exact hz
  | cons att rest ih =>
    intro tr z hz
    unfold unversionedPass at *
    simp only [List.foldl_cons]
    by_cases h1 : (v.any (fun a => a.fileSize == att.fileSize)) = true
    · rw [if_pos h1]
      exact ih _ z (List.mem_append_left _ hz)
    · rw [if_neg h1]
      by_cases h2 : (!matchExclude att.title && !(lowerStr att.url).isEmpty
          && v.any (fun a =>
            !(lowerStr a.url).isEmpty
              && (subList (lowerStr att.url) (lowerStr a.url)
                || subList (lowerStr a.url) (lowerStr att.url)))) = true
      · rw [if_pos h2]
        exact ih _ z (List.mem_append_left _ hz)
      · rw [if_neg h2]
        exact ih _ z hz

theorem unversionedPass_adds_size {v : List Att} {att : Att} :
    ∀ (nv tr : List Att), att ∈ nv →
      (v.any (fun a => a.fileSize == att.fileSize)) = true →
      att ∈ unversionedPass v nv tr := by
  intro nv
  induction nv with
  | nil => intro tr h; cases h
  | cons x rest ih =>
    intro tr hmem hsz
    rcases List.mem_cons.mp hmem with rfl | hmem'
    · unfold unversionedPass
      simp only [List.foldl_cons]
      rw [if_pos hsz]
      exact unversionedPass_mono rest _ att (List.mem_append_right _ (by simp))
    · unfold unversionedPass
      simp only [List.foldl_cons]
      by_cases h1 : (v.any (fun a => a.fileSize == x.fileSize)) = true
      · rw [if_pos h1]; exact ih _ hmem' hsz
      · rw [if_neg h1]
        by_cases h2 : (!matchExclude x.title && !(lowerStr x.url).isEmpty
            && v.any (fun a =>
              !(lowerStr a.url).isEmpty
                && (subList (lowerStr x.url) (lowerStr a.url)
                  || subList (lowerStr a.url) (lowerStr x.url)))) = true
        · rw [if_pos h2]; exact ih _ hmem' hsz
        · rw [if_neg h2]; exact ih _ hmem' hsz

theorem foldl_const_acc {α β : Type} :
    ∀ (l : List β) (a : α), List.foldl (fun x _ => x) a l = a := by
  intro l
  induction l with
  | nil => intro a; rfl
  | cons b t ih => intro a; simp only [List.foldl_cons]; exact ih a

theorem unversionedPass_nil_versioned :
    ∀ (nv tr : List Att), unversionedPass [] nv tr = tr := by
  intro nv tr
  unfold unversionedPass
  simp only [List.any_nil, Bool.and_false, Bool.false_eq_true, if_false]
  exact foldl_const_acc nv tr

theorem passLoopE_nil_base (tr lf : List Att) :
    passLoopE [] [] tr lf = .ok (tr, lf) := rfl

theorem publishedStage_nil (tr : List Att) : publishedStage [] tr = .ok tr := by
  unfold publishedStage
  simp [getBestE_nil]

theorem acceptedStage_nil (tr : List Att) : acceptedStage [] tr = .ok tr := rfl

theorem preprintStage_nil (tr : List Att) : preprintStage [] tr = .ok tr := rfl

theorem planAtts_all_unversioned {atts : List Att}
    (h : ∀ a ∈ atts, matchCombined a.title = false) :
    planAtts atts = .ok [] := by
  have hv : atts.filter (fun a => matchCombined a.title) = [] := by
    rw [List.filter_eq_nil_iff]
    intro a ha
    simp [h a ha]
  unfold planAtts
  rw [hv]
  show (match publishedStage []
      (unversionedPass [] (List.filter (fun a => !matchCombined a.title) atts) []) with
    | Except.error e => Except.error e
    | Except.ok tr1 =>
      match acceptedStage [] tr1 with
      | Except.error e => Except.error e
      | Except.ok tr2 =>
        match preprintStage [] tr2 with
        | Except.error e => Except.error e
        | Except.ok tr3 => Except.ok tr3) = Except.ok []
  simp only [unversionedPass_nil_versioned, publishedStage_nil, acceptedStage_nil,
    preprintStage_nil]

theorem processRemovingE_ok (store : Nat → Except String Unit) (item : Item) :
    ∃ r, processRemovingE store item = .ok r := by
  unfold processRemovingE
  by_cases h1 : (!item.isRegular) = true
  · rw [if_pos h1]; exact ⟨(0, 0), rfl⟩
  · rw [if_neg h1]
    by_cases h2 : (item.itemType == "webpage") = true
    · rw [if_pos h2]; exact ⟨(0, 0), rfl⟩
    · rw [if_neg h2]
      by_cases h3 : (item.atts.filter (·.isPDF)).length < 2
      · rw [if_pos h3]; exact ⟨(0, 0), rfl⟩
      · rw [if_neg h3]
        obtain ⟨p, hp, _⟩ := planAtts_spec (item.atts.filter (·.isPDF))
        refine ⟨execPlan store p, ?_⟩
        show (match planAtts (item.atts.filter (·.isPDF)) with
          | Except.error e => Except.error e
          | Except.ok plan => Except.ok (execPlan store plan)) = _
        rw [hp]

/-- Whether the store deletes the given attachment without an error. -/
def storeOk (store : Nat → Except String Unit) (a : Att) : Bool :=
  match store a.id with
  | .ok _ => true
  | .error _ => false

theorem execPlan_foldl (store : Nat → Except String Unit) :
    ∀ (plan : List Att) (r e : Nat),
      plan.foldl
        (fun acc att =>
          match store att.id with
          | .ok _ => (acc.1 + 1, acc.2)
          | .error _ => (acc.1, acc.2 + 1))
        (r, e)
      = (r + (plan.countP (storeOk store)),
         e + (plan.countP (fun a => !storeOk store a))) := by
  intro plan
  induction plan with
  | nil => intro r e; simp
  | cons att rest ih =>
    intro r e
    simp only [List.foldl_cons]
    cases hs : store att.id with
    | ok u =>
      rw [ih]
      simp only [List.countP_cons, Prod.mk.injEq, storeOk, hs]
      constructor <;> simp <;> omega
    | error msg =>
      rw [ih]
      simp only [List.countP_cons, Prod.mk.injEq, storeOk, hs]
      constructor <;> simp <;> omega

theorem execPlan_counts (store : Nat → Except String Unit) (plan : List Att) :
    execPlan store plan
      = (plan.countP (storeOk store),
         plan.countP (fun a => !storeOk store a)) := by
  unfold execPlan
  rw [execPlan_foldl]
  simp

theorem countP_bool_total (p : Att → Bool) (l : List Att) :
    l.countP p + l.countP (fun a => !p a) = l.length := by
  induction l with
  | nil => simp
  | cons a t ih =>
    simp only [List.countP_cons, List.length_cons]
    cases h : p a <;> simp [h] <;> omega

theorem getBest_spec {g : List Att} (hne : g ≠ []) (hn : (g.map (·.id)).Nodup) :
    ∃ b rem, getBestE g = .ok (some b, rem)
      ∧ rem = g.filter (fun a => a.id != b.id)
      ∧ b ∈ g
      ∧ (∀ z ∈ g, z.lastModifiedTime ≤ b.lastModifiedTime)
      ∧ g.find? (fun z => z.lastModifiedTime == maxMt g) = some b
      ∧ b ∉ rem
      ∧ rem.length = g.length - 1
      ∧ (∀ z ∈ g, z ≠ b → z ∈ rem) := by
  obtain ⟨b, hbl, hE⟩ := getBestE_ok hne
  have hfind : g.find? (fun z => z.lastModifiedTime == maxMt g) = some b := by
    rw [← bestLoop_find g hne]; exact hbl
  have hbm : b ∈ g := List.mem_of_find?_eq_some hfind
  have hmax : ∀ z ∈ g, z.lastModifiedTime ≤ b.lastModifiedTime := by
    intro z hz
    have hbmt : b.lastModifiedTime = maxMt g := by
      have := List.find?_some hfind
      simpa using this
    rw [hbmt]
    exact mem_le_maxMt hz
  have hinj := fun {x y} (hx : x ∈ g) (hy : y ∈ g) (he : x.id = y.id) =>
    List.inj_on_of_nodup_map hn hx hy he
  have hgn : g.Nodup := List.Nodup.of_map _ hn
  refine ⟨b, g.filter (fun a => a.id != b.id), hE, rfl, hbm, hmax, hfind, ?_, ?_, ?_⟩
  · intro hmem
    have := List.of_mem_filter hmem
    simp at this
  · have hcongr : g.filter (fun a => a.id != b.id) = g.filter (· != b) := by
      apply List.filter_congr
      intro x hx
      show (x.id != b.id) = (x != b)
      by_cases hxe : x = b
      · subst hxe
        rw [bne_self_eq_false, bne_self_eq_false]
      · have hne' : x.id ≠ b.id := fun he => hxe (hinj hx hbm he)
        rw [show (x.id != b.id) = true from bne_iff_ne.mpr hne',
          show (x != b) = true from bne_iff_ne.mpr hxe]
    rw [hcongr, ← List.Nodup.erase_eq_filter hgn b]
    exact List.length_erase_of_mem hbm
  · intro z hz hzb
    apply List.mem_filter.mpr
    refine ⟨hz, ?_⟩
    have hne' : z.id ≠ b.id := fun he => hzb (hinj hz hbm he)
    simp [hne']

/-- Attachment whose title matches both the accepted and the preprint
patterns, so the first-match classifier calls it Accepted while the
Preprint pass pool still contains it. -/
def attX : Att := ⟨1, "Accepted Version Preprint", "", 100, 10, true⟩

/-- Plain Preprint attachment with the same file size as `attX` and a
later modification time. -/
def attY : Att := ⟨2, "Preprint", "", 100, 20, true⟩

/-- Unversioned attachment, spec scenario 1 record A. -/
def attA : Att := ⟨1, "paper", "", 102400, 10, true⟩

/-- Unversioned attachment, spec scenario 1 record B. -/
def attB : Att := ⟨2, "paper2", "", 102400, 20, true⟩

/-- Unversioned supplement-titled attachment of spec scenario 3. -/
def attS : Att := ⟨1, "Supplement", "https://example.com/paper.pdf", 500, 10, true⟩

/-- Published attachment of spec scenario 3, same size as `attS`. -/
def attP : Att := ⟨2, "Published Version", "", 500, 20, true⟩

theorem gdY_nil : getDups attY [] = [attY] := by
  rw [getDups_eq]; decide

theorem gdX_single : getDups attX [attX] = [attX] := by
  rw [getDups_eq]; decide

theorem gdX_pair : getDups attX [attX, attY] = [attY, attX] := by
  rw [getDups_eq]
  rw [show directDups attX [attX, attY] = [attY] from by decide,
    show secBase attX [attX, attY] = [] from by decide]
  rw [List.map_cons, List.map_nil, gdY_nil]
  decide

theorem gdP_single : getDups attP [attP] = [attP] := by
  rw [getDups_eq]; decide

theorem passAccV : passLoopE [attX] [attX] [] [] = .ok ([], [attX]) := by
  simp only [passLoopE, gdX_single]
  rfl

theorem passPreV : passLoopE [attX, attY] [attX, attY] [] [] = .ok ([attX], [attY]) := by
  simp only [passLoopE, gdX_pair]
  rfl

theorem accStageXY : acceptedStage [attX, attY] [] = .ok [] := by
  show (match passLoopE ([attX, attY].filter (fun a => matchAccepted a.title))
      ([attX, attY].filter (fun a => matchAccepted a.title)) [] [] with
    | Except.error e => Except.error e
    | Except.ok (tr, _) => Except.ok tr) = Except.ok []
  rw [show List.filter (fun a => matchAccepted a.title) [attX, attY] = [attX] from by decide]
  rw [passAccV]

theorem preStageXY : preprintStage [attX, attY] [] = .ok [attX] := by
  show (match passLoopE ([attX, attY].filter (fun a => matchPreprint a.title))
      ([attX, attY].filter (fun a => matchPreprint a.title)) [] [] with
    | Except.error e => Except.error e
    | Except.ok (tr, _) => Except.ok tr) = Except.ok [attX]
  rw [show List.filter (fun a => matchPreprint a.title) [attX, attY] = [attX, attY] from by decide]
  rw [passPreV]

theorem pubStageXY : publishedStage [attX, attY] [] = .ok [] := rfl

theorem planXY : planAtts [attX, attY] = .ok [attX] := by
  show (match publishedStage (List.filter (fun a => matchCombined a.title) [attX, attY])
      (unversionedPass (List.filter (fun a => matchCombined a.title) [attX, attY])
        (List.filter (fun a => !matchCombined a.title) [attX, attY]) []) with
    | Except.error e => Except.error e
    | Except.ok tr1 =>
      match acceptedStage (List.filter (fun a => matchCombined a.title) [attX, attY]) tr1 with
      | Except.error e => Except.error e
      | Except.ok tr2 =>
        match preprintStage (List.filter (fun a => matchCombined a.title) [attX, attY]) tr2 with
        | Except.error e => Except.error e
        | Except.ok tr3 => Except.ok tr3) = Except.ok [attX]
  rw [show List.filter (fun a => matchCombined a.title) [attX, attY] = [attX, attY] from by decide,
    show List.filter (fun a => !matchCombined a.title) [attX, attY] = [] from by decide]
  rw [show unversionedPass [attX, attY] [] [] = ([] : List Att) from rfl]
  simp only [pubStageXY, accStageXY, preStageXY]

theorem planAB : planAtts [attA, attB] = .ok [] :=
  planAtts_all_unversioned (by decide)

theorem passPubSP : passLoopE [attP] [attP] [attS] [] = .ok ([attS], [attP]) := by
  simp only [passLoopE, gdP_single]
  rfl

theorem pubStageSP : publishedStage [attP] [attS] = .ok [attS] := by
  show (if ((([attP].filter (fun a => matchPublished a.title)).any
        (fun a => !matchSciHub a.title)) = true) then
      (match passLoopE
          (([attP].filter (fun a => matchPublished a.title)).filter
            (fun a => !matchSciHub a.title))
          (([attP].filter (fun a => matchPublished a.title)).filter
            (fun a => !matchSciHub a.title))
          ([attS] ++ ([attP].filter (fun a => matchPublished a.title)).filter
            (fun a => matchSciHub a.title)) [] with
      | Except.error e => Except.error e
      | Except.ok (tr, _) => Except.ok tr)
    else
      (match getBestE ([attP].filter (fun a => matchPublished a.title)) with
      | Except.error e => Except.error e
      | Except.ok (_, ds) => Except.ok ([attS] ++ ds))) = Except.ok [attS]
  rw [show List.filter (fun a => matchPublished a.title) [attP] = [attP] from by decide]
  rw [if_pos (by decide)]
  rw [show List.filter (fun a => !matchSciHub a.title) [attP] = [attP] from by decide,
    show List.filter (fun a => matchSciHub a.title) [attP] = ([] : List Att) from by decide]
  rw [show ([attS] ++ ([] : List Att)) = [attS] from by decide]
  rw [passPubSP]

theorem planSP : planAtts [attS, attP] = .ok [attS] := by
  show (match publishedStage (List.filter (fun a => matchCombined a.title) [attS, attP])
      (unversionedPass (List.filter (fun a => matchCombined a.title) [attS, attP])
        (List.filter (fun a => !matchCombined a.title) [attS, attP]) []) with
    | Except.error e => Except.error e
    | Except.ok tr1 =>
      match acceptedStage (List.filter (fun a => matchCombined a.title) [attS, attP]) tr1 with
      | Except.error e => Except.error e
      | Except.ok tr2 =>
        match preprintStage (List.filter (fun a => matchCombined a.title) [attS, attP]) tr2 with
        | Except.error e => Except.error e
        | Except.ok tr3 => Except.ok tr3) = Except.ok [attS]
  rw [show List.filter (fun a => matchCombined a.title) [attS, attP] = [attP] from by decide,
    show List.filter (fun a => !matchCombined a.title) [attS, attP] = [attS] from by decide]
  rw [show unversionedPass [attP] [attS] [] = [attS] from by decide]
  simp only [pubStageSP,
    show acceptedStage [attP] [attS] = .ok [attS] from rfl,
    show preprintStage [attP] [attS] = .ok [attS] from rfl]

theorem pairwise_mem_unique {l : List (List Att)}
    (hp : List.Pairwise (fun g h => ∀ z, z ∈ g → z ∉ h) l) :
    ∀ g ∈ l, ∀ h ∈ l, ∀ z, z ∈ g → z ∈ h → h = g := by
  induction l with
  | nil => intro g hg; cases hg
  | cons x rest ih =>
    intro g hg h hh z hzg hzh
    have hx := List.pairwise_cons.mp hp
    rcases List.mem_cons.mp hg with rfl | hg'
    · rcases List.mem_cons.mp hh with rfl | hh'
      · rfl
      · exact absurd hzh (hx.1 h hh' z hzg)
    · rcases List.mem_cons.mp hh with rfl | hh'
      · exact absurd hzg (hx.1 g hg' z hzh)
      · exact ih hx.2 g hg' h hh' z hzg hzh

/-- Modelled from the spec: a title that matches at most one of the three
version patterns, so the per-pass pools are pairwise disjoint. -/
def tierExclusive (t : String) : Prop :=
  (matchPublished t = true → matchAccepted t = false ∧ matchPreprint t = false)
    ∧ (matchAccepted t = true → matchPreprint t = false)

instance (t : String) : Decidable (tierExclusive t) := by
  unfold tierExclusive
  infer_instance

theorem firstMatchTier_accepted {t : String} (h : firstMatchTier t = Tier.accepted) :
    matchPublished t = false ∧ matchAccepted t = true := by
  unfold firstMatchTier at h
  by_cases h1 : matchPublished t = true
  · rw [if_pos h1] at h
    exact absurd h (by decide)
  · rw [if_neg h1] at h
    by_cases h2 : matchAccepted t = true
    · exact ⟨by simpa using h1, h2⟩
    · rw [if_neg h2] at h
      by_cases h3 : matchPreprint t = true
      · rw [if_pos h3] at h
        exact absurd h (by decide)
      · rw [if_neg h3] at h
        exact absurd h (by decide)

theorem firstMatchTier_preprint {t : String} (h : firstMatchTier t = Tier.preprint) :
    matchPublished t = false ∧ matchAccepted t = false ∧ matchPreprint t = true := by
  unfold firstMatchTier at h
  by_cases h1 : matchPublished t = true
  · rw [if_pos h1] at h
    exact absurd h (by decide)
  · rw [if_neg h1] at h
    by_cases h2 : matchAccepted t = true
    · rw [if_pos h2] at h
      exact absurd h (by decide)
    · rw [if_neg h2] at h
      by_cases h3 : matchPreprint t = true
      · exact ⟨by simpa using h1, by simpa using h2, h3⟩
      · rw [if_neg h3] at h
        exact absurd h (by decide)

/-- C1: for every parent record handed to the planner, `processRemoving`
completes and returns a `{removed, errors}` result without an uncaught
exception, whatever the attachment titles, sizes, URLs and whatever the
store does; in particular the Published pass (the stage that calls
`getBest` directly on the Published pool when it is empty or wholly
Sci-Hub-titled) always produces a result. -/
theorem C1_processRemoving_total :
    (∀ (store : Nat → Except String Unit) (item : Item),
      ∃ r, processRemovingE store item = Except.ok r)
    ∧ (∀ (versioned toRemove : List Att),
      ∃ tr, publishedStage versioned toRemove = Except.ok tr) := by
  refine ⟨processRemovingE_ok, ?_⟩
  intro v tr
  obtain ⟨tr', h, _, _⟩ := publishedStage_spec v tr
  exact ⟨tr', h⟩

/-- Attachment with empty URL and file size 100. -/
def attU1 : Att := ⟨1, "x", "", 100, 0, true⟩

/-- Attachment with empty URL and file size 200. -/
def attU2 : Att := ⟨2, "y", "", 200, 0, true⟩

/-- C2 counterexample: two attachments with both URLs empty and different
file sizes are matched by the code's predicate (the empty string is a
substring of everything), while the claimed characterization says they
match only on equal size. -/
theorem C2_counterexample :
    isDuplicate attU1 attU2 = true ∧ ¬ isDuplicateSpec attU1 attU2 := by
  constructor
  · decide
  · decide

/-- C2 amended: the pairwise predicate used by `getDups` holds exactly when
the file sizes agree or one lowered URL is a substring of the other, with
no non-emptiness requirement on either URL; consequently two attachments
with both URLs empty always match, whatever their sizes. -/
theorem C2_isDuplicate_amended :
    ∀ a b : Att,
      (isDuplicate a b = true
        ↔ (a.fileSize = b.fileSize
            ∨ subList (lowerStr a.url) (lowerStr b.url) = true
            ∨ subList (lowerStr b.url) (lowerStr a.url) = true))
      ∧ (a.url = "" → b.url = "" → isDuplicate a b = true) := by
  intro a b
  constructor
  · unfold isDuplicate
    simp only [Bool.or_eq_true, beq_iff_eq]
    constructor
    · rintro ((h | h) | h)
      · exact Or.inl h.symm
      · exact Or.inr (Or.inl h)
      · exact Or.inr (Or.inr h)
    · rintro (h | h | h)
      · exact Or.inl (Or.inl h.symm)
      · exact Or.inl (Or.inr h)
      · exact Or.inr h
  · intro h1 _
    exact isDuplicate_of_empty_url (Or.inl h1)

theorem C2_witness :
    attU1.url = "" ∧ attU2.url = "" ∧ isDuplicate attU1 attU2 = true :=
  ⟨rfl, rfl, (C2_isDuplicate_amended attU1 attU2).2 rfl rfl⟩

/-- C3 counterexample: for the scenario's two Unversioned equal-size
attachments the planner returns the empty plan, so record A is not planned
for removal, contradicting the claimed plan `{A}`. -/
theorem C3_counterexample :
    ¬ ∃ p, planAtts [attA, attB] = Except.ok p ∧ attA ∈ p := by
  rintro ⟨p, hp, hmem⟩
  rw [planAB] at hp
  injection hp with h
  subst h
  cases hmem

/-- C3 amended: for a parent with exactly two PDF attachments, both
Unversioned, with identical file sizes, distinct ids and A modified before
B, the run builds no duplicate group and the removal plan is empty:
unversioned attachments are never deduplicated against each other. -/
theorem C3_unversioned_pair_amended :
    ∀ A B : Att, matchCombined A.title = false → matchCombined B.title = false →
      A.fileSize = B.fileSize → A.id ≠ B.id →
      A.lastModifiedTime < B.lastModifiedTime →
      planAtts [A, B] = Except.ok [] := by
  intro A B hA hB _ _ _
  apply planAtts_all_unversioned
  intro a ha
  rcases List.mem_cons.mp ha with rfl | ha'
  · exact hA
  · rcases List.mem_cons.mp ha' with rfl | h
    · exact hB
    · cases h

theorem C3_witness :
    matchCombined attA.title = false ∧ matchCombined attB.title = false
      ∧ attA.fileSize = attB.fileSize ∧ attA.id ≠ attB.id
      ∧ attA.lastModifiedTime < attB.lastModifiedTime
      ∧ planAtts [attA, attB] = Except.ok [] :=
  ⟨by decide, by decide, by decide, by decide, by decide,
    C3_unversioned_pair_amended attA attB (by decide) (by decide) (by decide)
      (by decide) (by decide)⟩

/-- C4 counterexample: `attX`, whose first-match tier is Accepted (its
title contains both "accepted version" and "preprint"), is absent from the
plan after the Accepted pass but planned for removal by the Preprint pass,
so an Accepted-tier attachment is added as a byproduct of Preprint-tier
processing. -/
theorem C4_counterexample :
    firstMatchTier attX.title = Tier.accepted
      ∧ acceptedStage [attX, attY] [] = Except.ok []
      ∧ preprintStage [attX, attY] [] = Except.ok [attX]
      ∧ planAtts [attX, attY] = Except.ok [attX] :=
  ⟨by decide, accStageXY, preStageXY, planXY⟩

/-- C4 amended: when every versioned title matches at most one of the
three version patterns, the pass pools are disjoint and tier precedence
holds: an Accepted-tier attachment not already planned never enters the
plan through the Preprint pass, and a Preprint-tier attachment never
through the Accepted pass. -/
theorem C4_tier_precedence_amended :
    ∀ (vs : List Att) (a : Att) (tr out : List Att),
      (∀ x ∈ vs, tierExclusive x.title) →
      ((firstMatchTier a.title = Tier.accepted →
          preprintStage vs tr = Except.ok out → a ∈ out → a ∈ tr)
        ∧ (firstMatchTier a.title = Tier.preprint →
          acceptedStage vs tr = Except.ok out → a ∈ out → a ∈ tr)) := by
  intro vs a tr out hex
  constructor
  · intro htier hstage hmem
    obtain ⟨tr', hs', hmono, hnew⟩ := preprintStage_spec vs tr
    rw [hstage] at hs'
    injection hs' with h
    subst h
    rcases hnew a hmem with h | h
    · exact h
    · exfalso
      have hpool := List.mem_filter.mp h
      have haccept : matchAccepted a.title = true := (firstMatchTier_accepted htier).2
      have hfalse : matchPreprint a.title = false := (hex a hpool.1).2 haccept
      rw [hfalse] at hpool
      exact absurd hpool.2 (by simp)
  · intro htier hstage hmem
    obtain ⟨tr', hs', hmono, hnew⟩ := acceptedStage_spec vs tr
    rw [hstage] at hs'
    injection hs' with h
    subst h
    rcases hnew a hmem with h | h
    · exact h
    · exfalso
      have hpool := List.mem_filter.mp h
      have hfalse : matchAccepted a.title = false := (firstMatchTier_preprint htier).2.1
      rw [hfalse] at hpool
      exact absurd hpool.2 (by simp)

/-- Accepted-tier attachment used as a witness input. -/
def attAcc : Att := ⟨3, "Accepted Version", "", 1, 1, true⟩

theorem C4_witness :
    (∀ x ∈ [attP], tierExclusive x.title)
      ∧ firstMatchTier attAcc.title = Tier.accepted
      ∧ preprintStage [attP] [attAcc] = Except.ok [attAcc]
      ∧ attAcc ∈ [attAcc] :=
  ⟨by decide, by decide, rfl,
    (C4_tier_precedence_amended [attP] attAcc [attAcc] [attAcc] (by decide)).1
      (by decide) rfl (by decide)⟩

/-- C5: an Unversioned attachment whose file size equals the file size of
some versioned attachment is always planned for removal, regardless of its
URL and even when its title matches the `/supplement/i` exclusion pattern:
the size branch of the cross-tier subsumption check is unconditional. -/
theorem C5_unversioned_size_subsumption :
    ∀ (atts : List Att) (att v : Att) (p : List Att),
      att ∈ atts → v ∈ atts →
      matchCombined att.title = false → matchCombined v.title = true →
      v.fileSize = att.fileSize →
      planAtts atts = Except.ok p → att ∈ p := by
  intro atts att v p hatt hv hnv hver hsize hplan
  obtain ⟨p', hp', hup⟩ := planAtts_spec atts
  rw [hplan] at hp'
  injection hp' with h
  subst h
  apply hup
  apply unversionedPass_adds_size
  · exact List.mem_filter.mpr ⟨hatt, by simp [hnv]⟩
  · apply List.any_eq_true.mpr
    exact ⟨v, List.mem_filter.mpr ⟨hv, by simp [hver]⟩, beq_iff_eq.mpr hsize⟩

theorem C5_witness :
    attS ∈ [attS, attP] ∧ attP ∈ [attS, attP]
      ∧ matchCombined attS.title = false ∧ matchCombined attP.title = true
      ∧ attP.fileSize = attS.fileSize ∧ matchExclude attS.title = true
      ∧ attS ∈ [attS] :=
  ⟨by decide, by decide, by decide, by decide, by decide, by decide,
    C5_unversioned_size_subsumption [attS, attP] attS attP [attS]
      (by decide) (by decide) (by decide) (by decide) (by decide) planSP⟩

/-- C6: for any attachment list with pairwise distinct ids fed once into
the duplicate-group computation, the extracted groups partition the input:
their union is the input set, they are pairwise disjoint, and every record
lies in exactly one group. -/
theorem C6_groups_partition :
    ∀ base : List Att, (base.map (·.id)).Nodup →
      (∀ z, z ∈ (extractGroups base).flatten ↔ z ∈ base)
        ∧ List.Pairwise (fun g h => ∀ z, z ∈ g → z ∉ h) (extractGroups base)
        ∧ ∀ z ∈ base, ∃ g, g ∈ extractGroups base ∧ z ∈ g
            ∧ ∀ h, h ∈ extractGroups base → z ∈ h → h = g := by
  intro base hn
  refine ⟨extractGroups_cover hn, extractGroups_disjoint hn, ?_⟩
  intro z hz
  obtain ⟨g, hg, hzg⟩ := List.mem_flatten.mp ((extractGroups_cover hn z).mpr hz)
  exact ⟨g, hg, hzg,
    fun h hh hzh => pairwise_mem_unique (extractGroups_disjoint hn) g hg h hh z hzg hzh⟩

theorem C6_witness :
    (([attA, attB].map Att.id).Nodup)
      ∧ ((∀ z, z ∈ (extractGroups [attA, attB]).flatten ↔ z ∈ [attA, attB])
        ∧ List.Pairwise (fun g h => ∀ z, z ∈ g → z ∉ h) (extractGroups [attA, attB])
        ∧ ∀ z ∈ [attA, attB], ∃ g, g ∈ extractGroups [attA, attB] ∧ z ∈ g
            ∧ ∀ h, h ∈ extractGroups [attA, attB] → z ∈ h → h = g) :=
  ⟨by decide, C6_groups_partition [attA, attB] (by decide)⟩

/-- C7: on a non-empty duplicate group the selector returns exactly one
canonical record, namely the first record in iteration order whose
`lastModifiedTime` is maximal, together with the other `|group| - 1`
records as the removal set, which never contains the canonical; a
single-member group yields an empty removal set. -/
theorem C7_canonical_selector :
    ∀ g : List Att, g ≠ [] → (g.map (·.id)).Nodup →
      ∃ b rem, getBestE g = Except.ok (some b, rem)
        ∧ g.find? (fun z => z.lastModifiedTime == maxMt g) = some b
        ∧ b ∈ g ∧ (∀ z ∈ g, z.lastModifiedTime ≤ b.lastModifiedTime)
        ∧ b ∉ rem ∧ rem.length = g.length - 1
        ∧ (∀ z ∈ g, z = b ∨ z ∈ rem)
        ∧ (g.length = 1 → rem = []) := by
  intro g hne hn
  obtain ⟨b, rem, hE, hrem, hbm, hmax, hfind, hnotin, hlen, hothers⟩ := getBest_spec hne hn
  refine ⟨b, rem, hE, hfind, hbm, hmax, hnotin, hlen, ?_, ?_⟩
  · intro z hz
    by_cases hzb : z = b
    · exact Or.inl hzb
    · exact Or.inr (hothers z hz hzb)
  · intro h1
    rw [h1] at hlen
    exact List.length_eq_zero.mp hlen

theorem C7_witness :
    ([attA, attB] ≠ []) ∧ (([attA, attB].map Att.id).Nodup)
      ∧ ∃ b rem, getBestE [attA, attB] = Except.ok (some b, rem)
        ∧ [attA, attB].find? (fun z => z.lastModifiedTime == maxMt [attA, attB]) = some b
        ∧ b ∈ [attA, attB]
        ∧ (∀ z ∈ [attA, attB], z.lastModifiedTime ≤ b.lastModifiedTime)
        ∧ b ∉ rem ∧ rem.length = [attA, attB].length - 1
        ∧ (∀ z ∈ [attA, attB], z = b ∨ z ∈ rem)
        ∧ ([attA, attB].length = 1 → rem = []) :=
  ⟨by decide, by decide, C7_canonical_selector [attA, attB] (by decide) (by decide)⟩

/-- C8: in `getDups` the query record's id and the ids of all its direct
matches are excluded from the shrunken base list handed to every recursive
call, so whenever a recursive call happens the candidate list is strictly
shorter: the closure computation terminates on every finite base list. -/
theorem C8_shrinking_base :
    ∀ (cur : Att) (base : List Att),
      (∀ a ∈ secBase cur base,
        a.id ≠ cur.id ∧ a.id ∉ (directDups cur base).map (·.id))
        ∧ (∀ att ∈ directDups cur base,
          att ∉ secBase cur base ∧ (secBase cur base).length < base.length) := by
  intro cur base
  constructor
  · intro a ha
    have h := mem_secBase.mp ha
    exact ⟨h.2.1, h.2.2⟩
  · intro att hatt
    constructor
    · intro hmem
      exact (mem_secBase.mp hmem).2.2 (List.mem_map.mpr ⟨att, hatt, rfl⟩)
    · exact secBase_length_lt hatt

theorem C8_witness :
    attB ∈ directDups attA [attA, attB]
      ∧ attB ∉ secBase attA [attA, attB]
      ∧ (secBase attA [attA, attB]).length < [attA, attB].length :=
  ⟨by decide,
    ((C8_shrinking_base attA [attA, attB]).2 attB (by decide)).1,
    ((C8_shrinking_base attA [attA, attB]).2 attB (by decide)).2⟩

/-- C9: the executor attempts every planned attachment independently:
`removed` counts the successful deletions, `errors` the failed ones, every
planned attachment is counted exactly once, and the counts over a
concatenated plan are the sums of the counts over its parts, so a failure
never prevents later deletions from being attempted. -/
theorem C9_executor_counts :
    ∀ (store : Nat → Except String Unit) (plan : List Att),
      execPlan store plan
          = (plan.countP (storeOk store), plan.countP (fun a => !storeOk store a))
        ∧ (execPlan store plan).1 + (execPlan store plan).2 = plan.length
        ∧ ∀ xs ys : List Att,
            execPlan store (xs ++ ys)
              = ((execPlan store xs).1 + (execPlan store ys).1,
                 (execPlan store xs).2 + (execPlan store ys).2) := by
  intro store plan
  refine ⟨execPlan_counts store plan, ?_, ?_⟩
  · rw [execPlan_counts]
    exact countP_bool_total _ plan
  · intro xs ys
    rw [execPlan_counts, execPlan_counts, execPlan_counts]
    simp [List.countP_append]

/-- C10: the URL-substring branch of the duplicate test accepts any pair in
which at least one URL is empty, because every string contains the empty
string; hence a record with an empty URL is grouped by `getDups` with
every other record of its base list, whatever the file sizes. -/
theorem C10_empty_url_matches_all :
    ∀ (a b cur : Att) (base : List Att),
      ((a.url = "" ∨ b.url = "") → isDuplicate a b = true)
        ∧ (cur.url = "" → ∀ att ∈ base, att.id ≠ cur.id → att ∈ getDups cur base) := by
  intro a b cur base
  constructor
  · exact isDuplicate_of_empty_url
  · intro hurl att hatt hid
    apply directDups_subset_getDups
    exact mem_directDups.mpr ⟨hatt, hid, isDuplicate_of_empty_url (Or.inl hurl)⟩

theorem C10_witness :
    (attA.url = "" ∨ attS.url = "") ∧ isDuplicate attA attS = true
      ∧ attA.url = "" ∧ attB ∈ [attA, attB] ∧ attB.id ≠ attA.id
      ∧ attB ∈ getDups attA [attA, attB] :=
  ⟨Or.inl rfl,
    (C10_empty_url_matches_all attA attS attA [attA, attB]).1 (Or.inl rfl),
    rfl, by decide, by decide,
    (C10_empty_url_matches_all attA attS attA [attA, attB]).2 rfl attB
      (by decide) (by decide)⟩
